import Mathlib

/-!
Verification of the redaction engine of the go-logger repository.

Strings are modelled as `List Char`.  The components embedded here are:

* the secret store (`NewStore`, `storeAdd`, backed by a string set modelled
  as a duplicate-free list in first-insertion order, `strsetAdd` / `strsetNew`);
* the redactor collection constructor (`newStoreReaderCollection`) with its
  identity-based deduplication (`addReader`) and identity concatenation
  (`redactorId`);
* the redacting writer: `maxSecretLength`, `windowSize`, `getRedactorValues`,
  `mapPosition`, and the state transitions of `Write` (`writeStep`) and
  `Close` (`closeStep`).

The `RedactString` implementations of the store and of the collection are not
part of the sources (only their interface, callers and tests are); they are
modelled from the specification and marked as such below.
-/

namespace Redact

/-- Marker substituted for every matched secret: exactly seven `*` characters
(in the source, `strings.Repeat("*", 7)`). -/
def redactionMarker : List Char := List.replicate 7 '*'

/-- Model of `strset.Add`: insert a string into the set, modelled as a
duplicate-free list that keeps first-insertion order. -/
def strsetAdd (s : List (List Char)) (v : List Char) : List (List Char) :=
  if v ∈ s then s else s ++ [v]

/-- Model of `strset.New(values...)`: the set built by inserting each value in
order. -/
def strsetNew (values : List (List Char)) : List (List Char) :=
  values.foldl strsetAdd []

/-- Source `NewStore`: the redaction set is `strset.New(values...)`.  Note that
the constructor performs no length filtering: every given literal, of any
length, enters the set. -/
def NewStore (values : List (List Char)) : List (List Char) :=
  strsetNew values

/-- Source `store.Add`: values are processed in argument order; the first value
of length at most 1 makes the call return at once, so it and all later values
of the call are skipped, with no error reported. -/
def storeAdd (redactions : List (List Char)) : List (List Char) → List (List Char)
  | [] => redactions
  | value :: values =>
    if value.length ≤ 1 then redactions
    else storeAdd (strsetAdd redactions value) values

/-- Modelled from the spec: the body of `store.RedactString` is not under the
sources.  `replaceAllGo` is the leftmost, non-overlapping replacement of one
secret by a fixed replacement, the semantics of `strings.ReplaceAll` for a
non-empty pattern.  The recursion is fueled for structural termination; each
step consumes at least one character, so fuel equal to the input length is
exact.  An empty secret leaves the input unchanged (the spec never admits
secrets shorter than 2 characters). -/
def replaceAllGo (sec rep : List Char) : Nat → List Char → List Char
  | _, [] => []
  | 0, s => s
  | fuel + 1, c :: cs =>
    if 0 < sec.length ∧ sec.isPrefixOf (c :: cs) then
      rep ++ replaceAllGo sec rep fuel (List.drop (sec.length - 1) cs)
    else
      c :: replaceAllGo sec rep fuel cs

/-- Modelled from the spec: replacement of every occurrence of one secret. -/
def replaceAll (sec rep s : List Char) : List Char :=
  replaceAllGo sec rep s.length s

/-- Modelled from the spec: `store.RedactString` replaces every occurrence of
every tracked secret by the seven-star marker.  The iteration order of the
backing set is unspecified in the source; the model iterates the value list in
order, applying the replacements sequentially. -/
def redactString (values : List (List Char)) (input : List Char) : List Char :=
  values.foldl (fun acc v => replaceAll v redactionMarker acc) input

/-- Redactor values reachable in the package: a store (carrying its current
redaction set and its identity), a collection of redactors, or any other
implementation of the interface (carrying its redaction function and its
identity, like the mock redactor of the tests). -/
inductive Redactor where
  | store (redactions : List (List Char)) (ident : List Char)
  | storeReaderCollection (members : List Redactor)
  | other (redactFn : List Char → List Char) (ident : List Char)

/-- Source `id`: a store returns its identity assigned at construction; a
collection returns the concatenation of the identities of its members in
sequence order. -/
def redactorId : Redactor → List Char
  | .store _ i => i
  | .other _ i => i
  | .storeReaderCollection ms => go ms
where go : List Redactor → List Char
  | [] => []
  | r :: rs => redactorId r ++ go rs

/-- Source `redactingWriter.getRedactorValues`: a store yields its redaction
values, a collection recursively appends the values of all its members, and
any other redactor type yields nil. -/
def getRedactorValues : Redactor → List (List Char)
  | .store redactions _ => redactions
  | .storeReaderCollection ms => go ms
  | .other _ _ => []
where go : List Redactor → List (List Char)
  | [] => []
  | r :: rs => getRedactorValues r ++ go rs

/-- RedactString of a redactor.  The store case and the collection case
(sequential pipeline through the members) are modelled from the spec, since
their bodies are not under the sources; the other case applies the function of
the implementation. -/
def redactorRedactString : Redactor → List Char → List Char
  | .store redactions _, input => redactString redactions input
  | .storeReaderCollection ms, input => go ms input
  | .other f _, input => f input
where go : List Redactor → List Char → List Char
  | [], input => input
  | r :: rs, input => go rs (redactorRedactString r input)

/-- Helper of source `newStoreReaderCollection`: append a reader to the
accumulated collection unless its identity has been seen already; the second
component records the identities seen so far. -/
def addReader (acc : List Redactor × List (List Char)) (r : Redactor) :
    List Redactor × List (List Char) :=
  if redactorId r ∈ acc.2 then acc
  else (acc.1 ++ [r], acc.2 ++ [redactorId r])

/-- One step of the fold of source `newStoreReaderCollection`: a collection
argument is spliced member by member, any other argument is added directly. -/
def collectStep (acc : List Redactor × List (List Char)) (r : Redactor) :
    List Redactor × List (List Char) :=
  match r with
  | .storeReaderCollection rs => rs.foldl addReader acc
  | _ => addReader acc r

/-- Source `newStoreReaderCollection`: splices members of collection arguments
in place and deduplicates by identity, keeping the first reader encountered
with a given identity. -/
def newStoreReaderCollection (readers : List Redactor) : Redactor :=
  .storeReaderCollection (readers.foldl collectStep ([], [])).1

/-- Predicate used to state claims: whether a redactor value is a collection. -/
def isCollection : Redactor → Bool
  | .storeReaderCollection _ => true
  | _ => false

/-- Members of a collection value (and `[]` for non-collections); used to state
claims about collection membership. -/
def collectionMembers : Redactor → List Redactor
  | .storeReaderCollection ms => ms
  | _ => []

/-- Source `redactingWriter.maxSecretLength`: length of the longest secret
tracked by the redactor, with a default of 64 when no values are present. -/
def maxSecretLength (values : List (List Char)) : Nat :=
  if values.length = 0 then 64
  else values.foldl (fun maxLen v => if v.length > maxLen then v.length else maxLen) 0

/-- Sliding-window size computed on every Write call of the source:
`2 * maxSecretLength()`. -/
def windowSize (r : Redactor) : Nat :=
  2 * maxSecretLength (getRedactorValues r)

/-- Inner loop of source `mapPosition`: the first tracked secret (in value
order) matching at position `oPos` of the original, with the source condition
`oPos+len(secret) <= len(original) && original[oPos:oPos+len(secret)] == secret`. -/
def findSecretAt (values : List (List Char)) (original : List Char) (oPos : Nat) :
    Option (List Char) :=
  values.find? (fun secret =>
    decide (oPos + secret.length ≤ original.length) &&
      ((original.drop oPos).take secret.length == secret))

/-- Scan loop of source `mapPosition`: walk the original from position 0 while
`oPos < origPos && oPos < len(original)`; on a secret match advance the
original cursor by the secret length and the redacted cursor by the marker
width, otherwise advance both by one.  The model is fueled: every Go iteration
advances the original cursor by at least one for any match of positive length,
so `origPos` units of fuel reproduce the loop exactly; on a match of an empty
secret the Go loop would not terminate, while the model returns the cursor
reached when the fuel runs out. -/
def mapPositionGo (values : List (List Char)) (original : List Char) (origPos : Nat) :
    Nat → Nat → Nat → Nat
  | 0, _, rPos => rPos
  | fuel + 1, oPos, rPos =>
    if oPos < origPos ∧ oPos < original.length then
      match findSecretAt values original oPos with
      | some secret =>
          mapPositionGo values original origPos fuel (oPos + secret.length)
            (rPos + redactionMarker.length)
      | none => mapPositionGo values original origPos fuel (oPos + 1) (rPos + 1)
    else rPos

/-- Source `mapPosition`: maps a position of the original buffer into the
corresponding position of the redacted string. -/
def mapPosition (values : List (List Char)) (original redacted : List Char)
    (origPos : Nat) : Nat :=
  if origPos ≥ original.length then redacted.length
  else mapPositionGo values original origPos origPos 0 0

/-- Result of one Write call: bytes accepted, whether an error was returned,
the buffer after the call, and the bytes delivered to the underlying sink. -/
structure WriteResult where
  n : Nat
  errored : Bool
  buffer : List Char
  sent : List Char
  deriving Repr

/-- Source `redactingWriter.Write`: append the data to the buffer; if the
buffer exceeds the window, redact the entire buffer, map the flush boundary
into redacted coordinates, write the redacted text up to the boundary to the
sink and keep the redacted remainder as the new buffer.  `sinkErr` says
whether the underlying sink write fails; on failure the error is returned at
once and the buffer is left in the post-append state. -/
def writeStep (r : Redactor) (buffer0 p : List Char) (sinkErr : Bool) : WriteResult :=
  let buffer := buffer0 ++ p
  let ws := windowSize r
  if buffer.length > ws then
    let redactedFull := redactorRedactString r buffer
    let origFlushLen := buffer.length - ws
    let redactedFlushLen := mapPosition (getRedactorValues r) buffer redactedFull origFlushLen
    if sinkErr then
      { n := p.length, errored := true, buffer := buffer, sent := [] }
    else
      { n := p.length, errored := false,
        buffer := redactedFull.drop redactedFlushLen,
        sent := redactedFull.take redactedFlushLen }
  else
    { n := p.length, errored := false, buffer := buffer, sent := [] }

/-- Result of one Close call: whether an error was returned, the buffer after
the call, and the bytes delivered to the underlying sink. -/
structure CloseResult where
  errored : Bool
  buffer : List Char
  sent : List Char
  deriving Repr

/-- Source `redactingWriter.Close`: if the buffer is non-empty, redact it fully
and write the result to the sink (on a sink failure the error is returned and
the buffer is kept); on success the buffer becomes empty. -/
def closeStep (r : Redactor) (buffer : List Char) (sinkErr : Bool) : CloseResult :=
  if buffer.length > 0 then
    let redacted := redactorRedactString r buffer
    if sinkErr then { errored := true, buffer := buffer, sent := [] }
    else { errored := false, buffer := [], sent := redacted }
  else { errored := false, buffer := buffer, sent := [] }

/-- One successful Write call acting on the pair of writer buffer and
accumulated sink content. -/
def writeFold (r : Redactor) (st : List Char × List Char) (p : List Char) :
    List Char × List Char :=
  let res := writeStep r st.1 p false
  (res.buffer, st.2 ++ res.sent)

/-- Folds a sequence of successful Write calls from an empty buffer, returning
the final buffer together with everything delivered to the sink. -/
def runWrites (r : Redactor) (chunks : List (List Char)) : List Char × List Char :=
  chunks.foldl (writeFold r) ([], [])

/-- Everything the sink receives from a sequence of successful Write calls
followed by one Close call. -/
def runSession (r : Redactor) (chunks : List (List Char)) : List Char :=
  let st := runWrites r chunks
  st.2 ++ (closeStep r st.1 false).sent

/-! Helper lemmas about the single-secret replacement function. -/

theorem redactionMarker_length : redactionMarker.length = 7 := rfl

theorem replaceAllGo_nil (sec rep : List Char) (f : Nat) :
    replaceAllGo sec rep f [] = [] := by
  cases f <;> rfl

theorem replaceAllGo_cons (sec rep : List Char) (f : Nat) (c : Char) (cs : List Char) :
    replaceAllGo sec rep (f + 1) (c :: cs) =
      if 0 < sec.length ∧ sec.isPrefixOf (c :: cs) then
        rep ++ replaceAllGo sec rep f (List.drop (sec.length - 1) cs)
      else
        c :: replaceAllGo sec rep f cs := rfl

theorem replaceAllGo_fuel (sec rep : List Char) :
    ∀ (f₁ : Nat) (s : List Char) (f₂ : Nat), s.length ≤ f₁ → s.length ≤ f₂ →
      replaceAllGo sec rep f₁ s = replaceAllGo sec rep f₂ s := by
  intro f₁
  induction f₁ with
  | zero =>
    intro s f₂ h1 _
    have hs : s = [] := List.length_eq_zero.mp (Nat.le_zero.mp h1)
    subst hs
    rw [replaceAllGo_nil, replaceAllGo_nil]
  | succ f ih =>
    intro s f₂ h1 h2
    cases s with
    | nil => rw [replaceAllGo_nil, replaceAllGo_nil]
    | cons c cs =>
      cases f₂ with
      | zero => simp at h2
      | succ g =>
        rw [replaceAllGo_cons, replaceAllGo_cons]
        have hcs : cs.length ≤ f := by simp at h1; omega
        have hcs' : cs.length ≤ g := by simp at h2; omega
        have hdrop : (List.drop (sec.length - 1) cs).length ≤ cs.length := by
          simp [List.length_drop]
        by_cases h : 0 < sec.length ∧ sec.isPrefixOf (c :: cs)
        · rw [if_pos h, if_pos h, ih _ g (by omega) (by omega)]
        · rw [if_neg h, if_neg h, ih _ g hcs hcs']

theorem replaceAll_nil (sec rep : List Char) : replaceAll sec rep [] = [] := rfl

theorem replaceAll_match (sec rep : List Char) (s : List Char) (hpos : 0 < sec.length)
    (hpre : sec.isPrefixOf s) :
    replaceAll sec rep s = rep ++ replaceAll sec rep (s.drop sec.length) := by
  cases s with
  | nil =>
    have : sec <+: [] := List.isPrefixOf_iff_prefix.mp hpre
    have : sec = [] := List.prefix_nil.mp this
    simp [this] at hpos
  | cons c cs =>
    show replaceAllGo sec rep (cs.length + 1) (c :: cs) = _
    rw [replaceAllGo_cons, if_pos ⟨hpos, hpre⟩]
    congr 1
    have hL : sec.length - 1 + 1 = sec.length := by omega
    have hdrop : List.drop (sec.length - 1) cs = (c :: cs).drop sec.length := by
      rw [← hL, List.drop_succ_cons, hL]
    rw [hdrop]
    exact replaceAllGo_fuel sec rep cs.length _ _
      (by simp [List.length_drop]; omega) (by simp [List.length_drop])

theorem replaceAll_nomatch (sec rep : List Char) (c : Char) (cs : List Char)
    (h : ¬ (0 < sec.length ∧ sec.isPrefixOf (c :: cs))) :
    replaceAll sec rep (c :: cs) = c :: replaceAll sec rep cs := by
  show replaceAllGo sec rep (cs.length + 1) (c :: cs) = _
  rw [replaceAllGo_cons, if_neg h]
  rfl

/-! Helper lemmas about the string-set model. -/

theorem mem_strsetAdd (s : List (List Char)) (w v : List Char) :
    v ∈ strsetAdd s w ↔ v ∈ s ∨ v = w := by
  unfold strsetAdd
  split
  · rename_i h
    constructor
    · exact Or.inl
    · rintro (hv | rfl)
      · exact hv
      · exact h
  · simp

theorem nodup_strsetAdd (s : List (List Char)) (w : List Char) (h : s.Nodup) :
    (strsetAdd s w).Nodup := by
  unfold strsetAdd
  split
  · exact h
  · rename_i hw
    simp [List.nodup_append, h, hw]

theorem mem_foldl_strsetAdd :
    ∀ (values : List (List Char)) (acc : List (List Char)) (v : List Char),
      v ∈ values.foldl strsetAdd acc ↔ v ∈ acc ∨ v ∈ values := by
  intro values
  induction values with
  | nil => simp
  | cons w ws ih =>
    intro acc v
    rw [List.foldl_cons, ih, mem_strsetAdd]
    simp
    tauto

theorem nodup_foldl_strsetAdd :
    ∀ (values : List (List Char)) (acc : List (List Char)), acc.Nodup →
      (values.foldl strsetAdd acc).Nodup := by
  intro values
  induction values with
  | nil => intro acc h; exact h
  | cons w ws ih =>
    intro acc h
    rw [List.foldl_cons]
    exact ih _ (nodup_strsetAdd acc w h)

/-! Helper lemmas about the window size. -/

theorem maxSecretLength_singleton (sec : List Char) :
    maxSecretLength [sec] = sec.length := by
  unfold maxSecretLength
  simp
  intro h
  subst h
  rfl

theorem windowSize_store_singleton (sec ident : List Char) :
    windowSize (.store [sec] ident) = 2 * sec.length := by
  unfold windowSize
  rw [show getRedactorValues (.store [sec] ident) = [sec] from rfl,
    maxSecretLength_singleton]

theorem windowSize_of_no_values (r : Redactor) (h : getRedactorValues r = []) :
    windowSize r = 128 := by
  unfold windowSize
  rw [h]
  rfl

/-! Helper lemmas about the position-mapping scan. -/

theorem findSecretAt_nil (original : List Char) (oPos : Nat) :
    findSecretAt [] original oPos = none := rfl

theorem findSecretAt_singleton (sec : List Char) (hpos : 0 < sec.length)
    (original : List Char) (oPos : Nat) :
    findSecretAt [sec] original oPos =
      if sec.isPrefixOf (original.drop oPos) then some sec else none := by
  unfold findSecretAt
  by_cases h : sec.isPrefixOf (original.drop oPos)
  · rw [if_pos h]
    apply List.find?_cons_of_pos
    have hp : sec <+: original.drop oPos := List.isPrefixOf_iff_prefix.mp h
    have hlen : sec.length ≤ original.length - oPos := by
      have := hp.length_le
      simpa [List.length_drop] using this
    have hoPos : oPos + sec.length ≤ original.length := by
      rcases le_or_lt oPos original.length with h1 | h1
      · omega
      · exfalso
        have hnil : original.drop oPos = [] := List.drop_eq_nil_of_le h1.le
        have hsec : sec = [] := List.prefix_nil.mp (hnil ▸ hp)
        simp [hsec] at hpos
    have htake : (original.drop oPos).take sec.length = sec :=
      (List.prefix_iff_eq_take.mp hp).symm
    simp [hoPos, htake]
  · rw [if_neg h]
    rw [List.find?_eq_none]
    intro x hx
    simp at hx
    subst hx
    simp only [Bool.and_eq_true, decide_eq_true_eq, beq_iff_eq, not_and]
    intro _ htake
    apply absurd _ h
    apply List.isPrefixOf_iff_prefix.mpr
    have hpfx := List.take_prefix x.length (original.drop oPos)
    rw [htake] at hpfx
    exact hpfx

theorem findSecretAt_shift (values : List (List Char)) (original : List Char) (oPos : Nat)
    (h : oPos ≤ original.length) :
    findSecretAt values original oPos = findSecretAt values (original.drop oPos) 0 := by
  unfold findSecretAt
  induction values with
  | nil => rfl
  | cons sec secs ih =>
    rw [List.find?_cons, List.find?_cons]
    have h1 : decide (oPos + sec.length ≤ original.length)
        = decide (0 + sec.length ≤ (original.drop oPos).length) := by
      simp only [List.length_drop, Nat.zero_add]
      exact decide_eq_decide.mpr (by omega)
    have harg : (decide (oPos + sec.length ≤ original.length) &&
          ((original.drop oPos).take sec.length == sec))
        = (decide (0 + sec.length ≤ (original.drop oPos).length) &&
          (((original.drop oPos).drop 0).take sec.length == sec)) := by
      rw [List.drop_zero, h1]
    rw [harg]
    cases (decide (0 + sec.length ≤ (original.drop oPos).length) &&
        (((original.drop oPos).drop 0).take sec.length == sec)) with
    | true => rfl
    | false => exact ih

theorem mapPositionGo_zero (values : List (List Char)) (original : List Char)
    (origPos oPos rPos : Nat) :
    mapPositionGo values original origPos 0 oPos rPos = rPos := rfl

theorem mapPositionGo_succ (values : List (List Char)) (original : List Char)
    (origPos fuel oPos rPos : Nat) :
    mapPositionGo values original origPos (fuel + 1) oPos rPos =
      if oPos < origPos ∧ oPos < original.length then
        match findSecretAt values original oPos with
        | some secret =>
            mapPositionGo values original origPos fuel (oPos + secret.length)
              (rPos + redactionMarker.length)
        | none => mapPositionGo values original origPos fuel (oPos + 1) (rPos + 1)
      else rPos := rfl

theorem mapPositionGo_step_match (values : List (List Char)) (original : List Char)
    (origPos fuel oPos rPos : Nat) (secret : List Char)
    (hg : oPos < origPos ∧ oPos < original.length)
    (hfind : findSecretAt values original oPos = some secret) :
    mapPositionGo values original origPos (fuel + 1) oPos rPos
      = mapPositionGo values original origPos fuel (oPos + secret.length)
          (rPos + redactionMarker.length) := by
  rw [mapPositionGo_succ, if_pos hg, hfind]

theorem mapPositionGo_step_nomatch (values : List (List Char)) (original : List Char)
    (origPos fuel oPos rPos : Nat)
    (hg : oPos < origPos ∧ oPos < original.length)
    (hfind : findSecretAt values original oPos = none) :
    mapPositionGo values original origPos (fuel + 1) oPos rPos
      = mapPositionGo values original origPos fuel (oPos + 1) (rPos + 1) := by
  rw [mapPositionGo_succ, if_pos hg, hfind]

theorem mapPositionGo_stop (values : List (List Char)) (original : List Char)
    (origPos fuel oPos rPos : Nat)
    (hg : ¬ (oPos < origPos ∧ oPos < original.length)) :
    mapPositionGo values original origPos (fuel + 1) oPos rPos = rPos := by
  rw [mapPositionGo_succ, if_neg hg]

theorem mapPositionGo_shift (values : List (List Char)) :
    ∀ (fuel : Nat) (original : List Char) (origPos oPos rPos : Nat),
      mapPositionGo values original origPos fuel oPos rPos
        = rPos + mapPositionGo values (original.drop oPos) (origPos - oPos) fuel 0 0 := by
  intro fuel
  induction fuel with
  | zero =>
    intro original origPos oPos rPos
    rw [mapPositionGo_zero, mapPositionGo_zero]
    omega
  | succ f ih =>
    intro original origPos oPos rPos
    by_cases hg : oPos < origPos ∧ oPos < original.length
    · have hg' : 0 < origPos - oPos ∧ 0 < (original.drop oPos).length := by
        simp only [List.length_drop]; omega
      have hfs := findSecretAt_shift values original oPos hg.2.le
      cases hm : findSecretAt values (original.drop oPos) 0 with
      | some secret =>
        rw [mapPositionGo_step_match values original origPos f oPos rPos secret hg
          (hfs.trans hm)]
        rw [mapPositionGo_step_match values (original.drop oPos) (origPos - oPos) f 0 0
          secret hg' hm]
        rw [ih original origPos (oPos + secret.length) (rPos + redactionMarker.length)]
        rw [ih (original.drop oPos) (origPos - oPos) (0 + secret.length)
          (0 + redactionMarker.length)]
        simp only [Nat.zero_add, List.drop_drop, Nat.sub_sub]
        rw [Nat.add_assoc]
      | none =>
        rw [mapPositionGo_step_nomatch values original origPos f oPos rPos hg
          (hfs.trans hm)]
        rw [mapPositionGo_step_nomatch values (original.drop oPos) (origPos - oPos) f 0 0
          hg' hm]
        rw [ih original origPos (oPos + 1) (rPos + 1)]
        rw [ih (original.drop oPos) (origPos - oPos) (0 + 1) (0 + 1)]
        simp only [Nat.zero_add, List.drop_drop, Nat.sub_sub]
        rw [Nat.add_assoc]
    · have hg' : ¬ (0 < origPos - oPos ∧ 0 < (original.drop oPos).length) := by
        simp only [List.length_drop]; omega
      rw [mapPositionGo_stop values original origPos f oPos rPos hg]
      rw [mapPositionGo_stop values (original.drop oPos) (origPos - oPos) f 0 0 hg']
      omega

theorem mapPositionGo_no_values (original : List Char) :
    ∀ (fuel origPos oPos rPos : Nat), origPos ≤ original.length → oPos ≤ origPos →
      origPos - oPos ≤ fuel →
      mapPositionGo [] original origPos fuel oPos rPos = rPos + (origPos - oPos) := by
  intro fuel
  induction fuel with
  | zero =>
    intro origPos oPos rPos h1 h2 h3
    rw [mapPositionGo_zero]
    omega
  | succ f ih =>
    intro origPos oPos rPos h1 h2 h3
    by_cases hg : oPos < origPos ∧ oPos < original.length
    · rw [mapPositionGo_step_nomatch [] original origPos f oPos rPos hg
        (findSecretAt_nil original oPos)]
      rw [ih origPos (oPos + 1) (rPos + 1) h1 (by omega) (by omega)]
      omega
    · rw [mapPositionGo_stop [] original origPos f oPos rPos hg]
      omega

/-- Central lemma for the flush boundary with a single tracked secret: the
scan loop lands on a greedy-parse boundary k of the original, so the redaction
of the original splits into the redaction of the prefix up to k followed by
the redaction of the suffix from k, and the returned redacted cursor is the
length of the redacted prefix. -/
theorem mapScan_split (sec : List Char) (hsec : 0 < sec.length) :
    ∀ (fuel : Nat) (original : List Char) (origPos : Nat), origPos ≤ fuel →
      ∃ k, min origPos original.length ≤ k ∧
        mapPositionGo [sec] original origPos fuel 0 0
          = (replaceAll sec redactionMarker (original.take k)).length ∧
        replaceAll sec redactionMarker original
          = replaceAll sec redactionMarker (original.take k)
            ++ replaceAll sec redactionMarker (original.drop k) := by
  intro fuel
  induction fuel with
  | zero =>
    intro original origPos hf
    refine ⟨0, by omega, ?_, by simp [replaceAll_nil]⟩
    rw [mapPositionGo_zero]
    simp [replaceAll_nil]
  | succ f ih =>
    intro original origPos hf
    by_cases hg : 0 < origPos ∧ 0 < original.length
    · have hfind := findSecretAt_singleton sec hsec original 0
      rw [List.drop_zero] at hfind
      by_cases hpre : sec.isPrefixOf original
      · -- a secret matches at the start: jump over it on both sides
        rw [if_pos hpre] at hfind
        rw [mapPositionGo_step_match [sec] original origPos f 0 0 sec hg hfind]
        rw [mapPositionGo_shift]
        obtain ⟨k1, hk1min, hk1val, hk1split⟩ :=
          ih (original.drop sec.length) (origPos - sec.length) (by omega)
        have hself : sec <+: original := List.isPrefixOf_iff_prefix.mp hpre
        have horig : sec ++ original.drop sec.length = original :=
          List.prefix_iff_eq_append.mp hself
        have htake : original.take (sec.length + k1)
            = sec ++ (original.drop sec.length).take k1 := by
          conv_lhs => rw [← horig]
          rw [List.take_add, List.take_left, List.drop_left]
        have hredtake : replaceAll sec redactionMarker (original.take (sec.length + k1))
            = redactionMarker
              ++ replaceAll sec redactionMarker ((original.drop sec.length).take k1) := by
          rw [htake]
          rw [replaceAll_match sec redactionMarker _ hsec
            (List.isPrefixOf_iff_prefix.mpr ⟨_, rfl⟩)]
          rw [List.drop_left]
        refine ⟨sec.length + k1, ?_, ?_, ?_⟩
        · have hdl : (original.drop sec.length).length = original.length - sec.length :=
            List.length_drop _ _
          omega
        · rw [Nat.zero_add, Nat.zero_add, hk1val, hredtake]
          simp [redactionMarker_length]
        · have hsplit : replaceAll sec redactionMarker original
              = redactionMarker ++ replaceAll sec redactionMarker (original.drop sec.length) :=
            replaceAll_match sec redactionMarker original hsec hpre
          rw [hsplit, hk1split, hredtake, List.drop_drop, List.append_assoc]
      · -- no secret at the start: advance one character on both sides
        rw [if_neg hpre] at hfind
        obtain ⟨c, cs, rfl⟩ : ∃ c cs, original = c :: cs := by
          cases original with
          | nil => simp at hg
          | cons c cs => exact ⟨c, cs, rfl⟩
        rw [mapPositionGo_step_nomatch [sec] (c :: cs) origPos f 0 0 hg hfind]
        rw [mapPositionGo_shift]
        obtain ⟨k1, hk1min, hk1val, hk1split⟩ := ih ((c :: cs).drop 1) (origPos - 1) (by omega)
        rw [show (c :: cs).drop 1 = cs from rfl] at hk1min hk1val hk1split
        have hnm : ∀ z : List Char, z <+: cs →
            replaceAll sec redactionMarker (c :: z) = c :: replaceAll sec redactionMarker z := by
          intro z hz
          apply replaceAll_nomatch
          rintro ⟨-, hp⟩
          apply hpre
          apply List.isPrefixOf_iff_prefix.mpr
          obtain ⟨t, ht⟩ := hz
          have hcz : (c :: z) <+: (c :: cs) := ⟨t, by rw [List.cons_append, ht]⟩
          exact (List.isPrefixOf_iff_prefix.mp hp).trans hcz
        refine ⟨k1 + 1, ?_, ?_, ?_⟩
        · simp at hk1min ⊢
          omega
        · rw [show List.drop 1 (c :: cs) = cs from rfl]
          rw [hk1val]
          rw [show (c :: cs).take (k1 + 1) = c :: cs.take k1 from rfl]
          rw [hnm (cs.take k1) (List.take_prefix k1 cs)]
          simp
          omega
        · rw [hnm cs (by exact ⟨[], List.append_nil cs⟩)]
          rw [show (c :: cs).take (k1 + 1) = c :: cs.take k1 from rfl]
          rw [show (c :: cs).drop (k1 + 1) = cs.drop k1 from rfl]
          rw [hnm (cs.take k1) (List.take_prefix k1 cs), hk1split]
          rfl
    · refine ⟨0, by omega, ?_, by simp [replaceAll_nil]⟩
      rw [mapPositionGo_stop [sec] original origPos f 0 0 (by omega)]
      simp [replaceAll_nil]

/-! Helper lemmas about the writer step. -/

theorem writeStep_no_flush (r : Redactor) (buffer p : List Char) (e : Bool)
    (h : (buffer ++ p).length ≤ windowSize r) :
    writeStep r buffer p e
      = { n := p.length, errored := false, buffer := buffer ++ p, sent := [] } := by
  unfold writeStep
  rw [if_neg (by omega)]

theorem writeStep_flush_err (r : Redactor) (buffer p : List Char)
    (h : windowSize r < (buffer ++ p).length) :
    writeStep r buffer p true
      = { n := p.length, errored := true, buffer := buffer ++ p, sent := [] } := by
  unfold writeStep
  rw [if_pos (by omega)]
  rfl

theorem writeStep_flush_ok (r : Redactor) (buffer p : List Char)
    (h : windowSize r < (buffer ++ p).length) :
    writeStep r buffer p false
      = { n := p.length, errored := false,
          buffer := (redactorRedactString r (buffer ++ p)).drop
            (mapPosition (getRedactorValues r) (buffer ++ p)
              (redactorRedactString r (buffer ++ p)) ((buffer ++ p).length - windowSize r)),
          sent := (redactorRedactString r (buffer ++ p)).take
            (mapPosition (getRedactorValues r) (buffer ++ p)
              (redactorRedactString r (buffer ++ p)) ((buffer ++ p).length - windowSize r)) } := by
  unfold writeStep
  rw [if_pos (by omega)]
  rfl

theorem runWrites_buffered (r : Redactor) :
    ∀ (chunks : List (List Char)) (buffer sink : List Char),
      buffer.length + (chunks.map List.length).sum ≤ windowSize r →
      chunks.foldl (writeFold r) (buffer, sink) = (buffer ++ chunks.flatten, sink) := by
  intro chunks
  induction chunks with
  | nil =>
    intro buffer sink _
    simp
  | cons p ps ih =>
    intro buffer sink h
    rw [List.foldl_cons]
    have hle : (buffer ++ p).length ≤ windowSize r := by
      simp at h ⊢
      omega
    have hstep : writeFold r (buffer, sink) p = (buffer ++ p, sink) := by
      unfold writeFold
      rw [writeStep_no_flush r buffer p false hle]
      simp
    rw [hstep, ih (buffer ++ p) sink (by simp at h ⊢; omega)]
    simp

/-! Helper lemmas about the collection constructor. -/

theorem collectStep_base (acc : List Redactor × List (List Char)) (r : Redactor)
    (h : isCollection r = false) : collectStep acc r = addReader acc r := by
  cases r with
  | store v i => rfl
  | storeReaderCollection ms => simp [isCollection] at h
  | other f i => rfl

theorem addReader_base_members (acc : List Redactor × List (List Char)) (r : Redactor) :
    (addReader acc r).1 = acc.1 ∨ (addReader acc r).1 = acc.1 ++ [r] := by
  unfold addReader
  split
  · exact Or.inl rfl
  · exact Or.inr rfl

theorem foldl_addReader_flat :
    ∀ (rs : List Redactor) (acc : List Redactor × List (List Char)),
      (∀ m ∈ acc.1, isCollection m = false) →
      (∀ m ∈ rs, isCollection m = false) →
      ∀ m ∈ (rs.foldl addReader acc).1, isCollection m = false := by
  intro rs
  induction rs with
  | nil => intro acc hacc _ m hm; exact hacc m hm
  | cons r rs ih =>
    intro acc hacc hrs m hm
    rw [List.foldl_cons] at hm
    refine ih (addReader acc r) ?_ (fun x hx => hrs x (List.mem_cons_of_mem r hx)) m hm
    intro x hx
    rcases addReader_base_members acc r with h1 | h1
    · exact hacc x (h1 ▸ hx)
    · rw [h1] at hx
      rcases List.mem_append.mp hx with h2 | h2
      · exact hacc x h2
      · rw [List.mem_singleton.mp h2]
        exact hrs r (List.mem_cons_self r rs)

theorem foldl_collectStep_flat :
    ∀ (readers : List Redactor) (acc : List Redactor × List (List Char)),
      (∀ m ∈ acc.1, isCollection m = false) →
      (∀ r ∈ readers, ∀ m ∈ collectionMembers r, isCollection m = false) →
      ∀ m ∈ (readers.foldl collectStep acc).1, isCollection m = false := by
  intro readers
  induction readers with
  | nil => intro acc hacc _ m hm; exact hacc m hm
  | cons r rs ih =>
    intro acc hacc hrd m hm
    rw [List.foldl_cons] at hm
    refine ih (collectStep acc r) ?_
      (fun x hx => hrd x (List.mem_cons_of_mem r hx)) m hm
    intro x hx
    cases r with
    | storeReaderCollection ms =>
      exact foldl_addReader_flat ms acc hacc
        (hrd (.storeReaderCollection ms) (List.mem_cons_self _ _)) x hx
    | store v i =>
      rw [show collectStep acc (.store v i) = addReader acc (.store v i) from rfl] at hx
      rcases addReader_base_members acc (.store v i) with h1 | h1
      · exact hacc x (h1 ▸ hx)
      · rw [h1] at hx
        rcases List.mem_append.mp hx with h2 | h2
        · exact hacc x h2
        · rw [List.mem_singleton.mp h2]
          rfl
    | other f i =>
      rw [show collectStep acc (.other f i) = addReader acc (.other f i) from rfl] at hx
      rcases addReader_base_members acc (.other f i) with h1 | h1
      · exact hacc x (h1 ▸ hx)
      · rw [h1] at hx
        rcases List.mem_append.mp hx with h2 | h2
        · exact hacc x h2
        · rw [List.mem_singleton.mp h2]
          rfl

theorem addReader_empty (r : Redactor) :
    addReader ([], []) r = ([r], [redactorId r]) := by
  unfold addReader
  rw [if_neg (by simp)]
  rfl

theorem refold_pair (a b : Redactor) :
    ((List.foldl addReader ([], []) [a, b]).1).foldl addReader ([], [])
      = List.foldl addReader ([], []) [a, b] := by
  rw [List.foldl_cons, List.foldl_cons, List.foldl_nil, addReader_empty]
  by_cases hid : redactorId b ∈ [redactorId a]
  · rw [show addReader ([a], [redactorId a]) b = ([a], [redactorId a]) from by
      unfold addReader; rw [if_pos hid]]
    rw [List.foldl_cons, List.foldl_nil, addReader_empty]
  · rw [show addReader ([a], [redactorId a]) b
        = ([a, b], [redactorId a, redactorId b]) from by
      unfold addReader; rw [if_neg hid]; rfl]
    rw [List.foldl_cons, List.foldl_cons, List.foldl_nil, addReader_empty]
    rw [show addReader ([a], [redactorId a]) b
        = ([a, b], [redactorId a, redactorId b]) from by
      unfold addReader; rw [if_neg hid]; rfl]

theorem storeAdd_cons (cur : List (List Char)) (v : List Char) (vs : List (List Char)) :
    storeAdd cur (v :: vs)
      = if v.length ≤ 1 then cur else storeAdd (strsetAdd cur v) vs := rfl

theorem redactString_singleton (sec s : List Char) :
    redactString [sec] s = replaceAll sec redactionMarker s := rfl

/-! Claim theorems. -/

/-- C1: every byte delivered to the sink by a Write flush is a prefix, hence a
part, of the RedactString output over the entire post-append buffer; every
byte delivered by Close is the RedactString output over the entire remaining
buffer; and the split-secret scenario of the claim holds exactly: with secret
password123, writing user pass then word123 logged in and closing delivers
exactly user ******* logged in to the sink. -/
theorem c1_sink_receives_only_redacted :
    (∀ (r : Redactor) (buffer p : List Char),
      (writeStep r buffer p false).sent <+: redactorRedactString r (buffer ++ p))
    ∧ (∀ (r : Redactor) (buffer : List Char),
      (closeStep r buffer false).sent <+: redactorRedactString r buffer)
    ∧ runSession (.store ["password123".toList] [])
        ["user pass".toList, "word123 logged in".toList]
        = "user ******* logged in".toList := by
  refine ⟨?_, ?_, by decide⟩
  · intro r buffer p
    by_cases h : windowSize r < (buffer ++ p).length
    · rw [writeStep_flush_ok r buffer p h]
      exact ⟨_, List.take_append_drop _ _⟩
    · rw [writeStep_no_flush r buffer p false (by omega)]
      exact ⟨_, rfl⟩
  · intro r buffer
    unfold closeStep
    by_cases h : buffer.length > 0
    · rw [if_pos h]
      exact ⟨[], List.append_nil _⟩
    · rw [if_neg h]
      exact ⟨_, rfl⟩

/-- C2 counterexample: with tracked secrets bc and ab (in this value order) and
buffer Xabcdef, Write flushes (window 4, original flush point 3) and the
mapped boundary is 8, although in the redacted buffer Xa*******def the single
marker occupies positions 2 to 9: the flushed prefix Xa****** carries six of
the seven marker stars and the retained buffer *def carries the seventh, so
the flushed prefix and the retained tail bisect the marker; the claim, which
quantifies over every tracked secret set including overlapping ones, fails. -/
theorem c2_overlapping_secrets_bisect_marker :
    redactString ["bc".toList, "ab".toList] "Xabcdef".toList
      = "Xa".toList ++ redactionMarker ++ "def".toList
    ∧ ("Xabcdef".toList).length - windowSize (.store ["bc".toList, "ab".toList] []) = 3
    ∧ mapPosition (getRedactorValues (.store ["bc".toList, "ab".toList] []))
        "Xabcdef".toList (redactString ["bc".toList, "ab".toList] "Xabcdef".toList) 3 = 8
    ∧ (writeStep (.store ["bc".toList, "ab".toList] []) [] "Xabcdef".toList false).sent
        = "Xa".toList ++ List.replicate 6 '*'
    ∧ (writeStep (.store ["bc".toList, "ab".toList] []) [] "Xabcdef".toList false).buffer
        = '*' :: "def".toList := by
  decide

/-- C2 (amended): for a flush performed inside Write over a redactor whose
tracked value list is a single non-empty secret, the mapped boundary splits
the redacted buffer into the full redaction of an original prefix of length at
least origFlushLen followed by the full redaction of the retained original
tail, so the boundary never bisects a marker.  Over arbitrary secret sets,
including secrets that overlap one another, the property is false (see the
counterexample). -/
theorem c2_flush_boundary_single_secret (sec ident buffer : List Char)
    (hsec : 0 < sec.length)
    (hflush : windowSize (.store [sec] ident) < buffer.length) :
    ∃ k, buffer.length - windowSize (.store [sec] ident) ≤ k
      ∧ (redactorRedactString (.store [sec] ident) buffer).take
          (mapPosition (getRedactorValues (.store [sec] ident)) buffer
            (redactorRedactString (.store [sec] ident) buffer)
            (buffer.length - windowSize (.store [sec] ident)))
        = redactString [sec] (buffer.take k)
      ∧ (redactorRedactString (.store [sec] ident) buffer).drop
          (mapPosition (getRedactorValues (.store [sec] ident)) buffer
            (redactorRedactString (.store [sec] ident) buffer)
            (buffer.length - windowSize (.store [sec] ident)))
        = redactString [sec] (buffer.drop k) := by
  have hw : windowSize (.store [sec] ident) = 2 * sec.length :=
    windowSize_store_singleton sec ident
  have hnlt : buffer.length - windowSize (.store [sec] ident) < buffer.length := by omega
  have hvals : getRedactorValues (Redactor.store [sec] ident) = [sec] := rfl
  have hredeq : redactorRedactString (Redactor.store [sec] ident) buffer
      = replaceAll sec redactionMarker buffer := rfl
  have hmp : mapPosition [sec] buffer (replaceAll sec redactionMarker buffer)
        (buffer.length - windowSize (.store [sec] ident))
      = mapPositionGo [sec] buffer (buffer.length - windowSize (.store [sec] ident))
          (buffer.length - windowSize (.store [sec] ident)) 0 0 := by
    unfold mapPosition
    rw [if_neg (by omega)]
  obtain ⟨k, hkmin, hkval, hksplit⟩ :=
    mapScan_split sec hsec (buffer.length - windowSize (.store [sec] ident)) buffer
      (buffer.length - windowSize (.store [sec] ident)) (le_refl _)
  refine ⟨k, ?_, ?_, ?_⟩
  · rw [Nat.min_eq_left hnlt.le] at hkmin
    exact hkmin
  · rw [hvals, hredeq, redactString_singleton, hmp, hkval, hksplit]
    exact List.take_left _ _
  · rw [hvals, hredeq, redactString_singleton, hmp, hkval, hksplit]
    exact List.drop_left _ _

theorem c2_flush_boundary_single_secret_witness :
    0 < ("ab".toList).length
    ∧ windowSize (.store ["ab".toList] []) < ("cdefgab".toList).length
    ∧ (∃ k, ("cdefgab".toList).length - windowSize (.store ["ab".toList] []) ≤ k
      ∧ (redactorRedactString (.store ["ab".toList] []) "cdefgab".toList).take
          (mapPosition (getRedactorValues (.store ["ab".toList] [])) "cdefgab".toList
            (redactorRedactString (.store ["ab".toList] []) "cdefgab".toList)
            (("cdefgab".toList).length - windowSize (.store ["ab".toList] [])))
        = redactString ["ab".toList] (("cdefgab".toList).take k)
      ∧ (redactorRedactString (.store ["ab".toList] []) "cdefgab".toList).drop
          (mapPosition (getRedactorValues (.store ["ab".toList] [])) "cdefgab".toList
            (redactorRedactString (.store ["ab".toList] []) "cdefgab".toList)
            (("cdefgab".toList).length - windowSize (.store ["ab".toList] [])))
        = redactString ["ab".toList] (("cdefgab".toList).drop k)) :=
  ⟨by decide, by decide,
    c2_flush_boundary_single_secret "ab".toList [] "cdefgab".toList (by decide) (by decide)⟩

/-- C3 counterexample: for a writer over a store with no tracked secrets, the
window size computed by Write is 2 * 64 = 128 bytes, not 64 bytes as the
claim states. -/
theorem c3_window_is_not_64 :
    windowSize (.store (NewStore []) []) = 128
    ∧ ¬ windowSize (.store (NewStore []) []) = 64 := by
  decide

/-- C3 (amended): for every Write call on a RedactingWriter whose redactor
currently tracks no secrets, the computed sliding-window size is 128 bytes:
the maximum secret length defaults to 64 and the window is twice that. -/
theorem c3_window_default_128 (r : Redactor) (h : getRedactorValues r = []) :
    windowSize r = 128 :=
  windowSize_of_no_values r h

theorem c3_window_default_128_witness :
    getRedactorValues (.store (NewStore []) []) = []
    ∧ windowSize (.store (NewStore []) []) = 128 :=
  ⟨rfl, c3_window_default_128 (.store (NewStore []) []) rfl⟩

/-- C4 counterexample: NewStore does not drop short literals: seeding with the
one-character literal a yields a store whose tracked set is exactly that
literal, violating the claimed construction-time length filter and the
claimed length invariant. -/
theorem c4_short_literal_admitted :
    NewStore ["a".toList] = ["a".toList] ∧ ("a".toList).length < 2 := by
  decide

/-- C4 (amended): NewStore returns a store whose tracked set contains exactly
the distinct given literals of any length: duplicates coalesce to one member
with no error, but literals shorter than 2 characters are admitted at
construction (only Add filters them). -/
theorem c4_newstore_membership (values : List (List Char)) (v : List Char) :
    (v ∈ NewStore values ↔ v ∈ values) ∧ (NewStore values).Nodup := by
  constructor
  · unfold NewStore strsetNew
    rw [mem_foldl_strsetAdd values [] v]
    simp
  · exact nodup_foldl_strsetAdd values [] List.nodup_nil

/-- C5: Add processes values in argument order and the first value shorter
than 2 characters aborts the rest of the call: the committed set is exactly
the fold of the longest prefix of values of length at least 2; in particular
a short head commits nothing of the call, and a single short value is a
no-op. -/
theorem c5_add_abort_semantics :
    (∀ (cur values : List (List Char)),
      storeAdd cur values
        = (values.takeWhile (fun v => decide (2 ≤ v.length))).foldl strsetAdd cur)
    ∧ (∀ (cur : List (List Char)) (v : List Char) (vs : List (List Char)),
      v.length < 2 → storeAdd cur (v :: vs) = cur)
    ∧ (∀ (cur : List (List Char)) (v : List Char),
      v.length < 2 → storeAdd cur [v] = cur) := by
  have habort : ∀ (cur : List (List Char)) (v : List Char) (vs : List (List Char)),
      v.length < 2 → storeAdd cur (v :: vs) = cur := by
    intro cur v vs hv
    rw [storeAdd_cons, if_pos (by omega)]
  refine ⟨?_, habort, fun cur v hv => habort cur v [] hv⟩
  intro cur values
  induction values generalizing cur with
  | nil => rfl
  | cons v vs ih =>
    by_cases hv : v.length ≤ 1
    · rw [habort cur v vs (by omega)]
      rw [List.takeWhile_cons]
      rw [show (decide (2 ≤ v.length)) = false from by simp; omega]
      rfl
    · rw [storeAdd_cons, if_neg hv, List.takeWhile_cons]
      rw [show (decide (2 ≤ v.length)) = true from by simp; omega]
      rw [if_pos rfl, List.foldl_cons]
      exact ih (strsetAdd cur v)

theorem c5_add_abort_semantics_witness :
    ("a".toList).length < 2
    ∧ storeAdd ["xy".toList] ["a".toList, "zw".toList] = ["xy".toList] :=
  ⟨by decide,
    c5_add_abort_semantics.2.1 ["xy".toList] "a".toList ["zw".toList] (by decide)⟩

/-- C6: RedactString replaces every occurrence of every tracked secret by a
marker of exactly seven stars: the scenario of the claim holds exactly, the
marker width is 7 independent of the secret, and replacing any non-empty
secret standing alone yields exactly the marker. -/
theorem c6_redact_marker_seven_stars :
    redactString (NewStore ["secret".toList, "password".toList])
        "my secret and password".toList = "my ******* and *******".toList
    ∧ redactionMarker.length = 7
    ∧ (∀ sec : List Char, 0 < sec.length →
        replaceAll sec redactionMarker sec = redactionMarker) := by
  refine ⟨by decide, rfl, ?_⟩
  intro sec hsec
  have hpre : sec.isPrefixOf sec :=
    List.isPrefixOf_iff_prefix.mpr ⟨[], List.append_nil sec⟩
  rw [replaceAll_match sec redactionMarker sec hsec hpre]
  rw [List.drop_length, replaceAll_nil]
  exact List.append_nil _

theorem c6_redact_marker_seven_stars_witness :
    0 < ("ab".toList).length
    ∧ replaceAll "ab".toList redactionMarker "ab".toList = redactionMarker :=
  ⟨by decide, c6_redact_marker_seven_stars.2.2 "ab".toList (by decide)⟩

/-- C7: Write always reports bytesAccepted equal to the length of the data,
with and without a sink failure; and when the sink write fails during a flush
the call returns the error and leaves the buffer exactly in the post-append
state, with the computed redaction discarded. -/
theorem c7_write_accepts_and_preserves_on_error :
    ∀ (r : Redactor) (buffer p : List Char) (sinkErr : Bool),
      (writeStep r buffer p sinkErr).n = p.length
      ∧ (windowSize r < (buffer ++ p).length →
          (writeStep r buffer p true).errored = true
          ∧ (writeStep r buffer p true).buffer = buffer ++ p) := by
  intro r buffer p sinkErr
  constructor
  · by_cases h : windowSize r < (buffer ++ p).length
    · cases sinkErr with
      | true => rw [writeStep_flush_err r buffer p h]
      | false => rw [writeStep_flush_ok r buffer p h]
    · rw [writeStep_no_flush r buffer p sinkErr (by omega)]
  · intro h
    rw [writeStep_flush_err r buffer p h]
    exact ⟨rfl, rfl⟩

theorem c7_write_accepts_and_preserves_on_error_witness :
    windowSize (.store ["ab".toList] []) < ([] ++ "abcde".toList).length
    ∧ (writeStep (.store ["ab".toList] []) [] "abcde".toList false).n
        = ("abcde".toList).length
    ∧ (writeStep (.store ["ab".toList] []) [] "abcde".toList true).errored = true
    ∧ (writeStep (.store ["ab".toList] []) [] "abcde".toList true).buffer
        = [] ++ "abcde".toList := by
  have h := c7_write_accepts_and_preserves_on_error (.store ["ab".toList] [])
    [] "abcde".toList false
  exact ⟨by decide, h.1, (h.2 (by decide)).1, (h.2 (by decide)).2⟩

/-- C8: over a store tracking a single secret of length L the computed window
size is exactly 2L, and any sequence of Write calls whose total length stays
within the window delivers nothing to the sink. -/
theorem c8_window_and_no_flush_until_close :
    ∀ (sec ident : List Char),
      windowSize (.store [sec] ident) = 2 * sec.length
      ∧ (∀ chunks : List (List Char),
          (chunks.map List.length).sum ≤ 2 * sec.length →
          (runWrites (.store [sec] ident) chunks).2 = []) := by
  intro sec ident
  refine ⟨windowSize_store_singleton sec ident, ?_⟩
  intro chunks h
  unfold runWrites
  rw [runWrites_buffered (.store [sec] ident) chunks [] []
    (by rw [windowSize_store_singleton]; simpa using h)]

theorem c8_window_and_no_flush_until_close_witness :
    ((["ab".toList, "c".toList].map List.length).sum ≤ 2 * ("ab".toList).length)
    ∧ windowSize (.store ["ab".toList] "i".toList) = 2 * ("ab".toList).length
    ∧ (runWrites (.store ["ab".toList] "i".toList) ["ab".toList, "c".toList]).2 = [] := by
  have h := c8_window_and_no_flush_until_close "ab".toList "i".toList
  exact ⟨by decide, h.1, h.2 ["ab".toList, "c".toList] (by decide)⟩

/-- C9: the collection constructor flattens collection arguments (whenever the
argument collections are themselves flat, as every constructor-built
collection is, the result contains no collection member), one level of
constructor nesting collapses: building over (collection of a and b) and c
equals building over a, b and c directly, with the identical RedactString
pipeline; and a later member with a duplicate identity is dropped without
error, keeping the first. -/
theorem c9_collection_flatten_dedup :
    (∀ readers : List Redactor,
      (∀ r ∈ readers, ∀ m ∈ collectionMembers r, isCollection m = false) →
      ∀ m ∈ collectionMembers (newStoreReaderCollection readers), isCollection m = false)
    ∧ (∀ a b c : Redactor, isCollection a = false → isCollection b = false →
        newStoreReaderCollection [newStoreReaderCollection [a, b], c]
          = newStoreReaderCollection [a, b, c]
        ∧ redactorRedactString (newStoreReaderCollection [newStoreReaderCollection [a, b], c])
          = redactorRedactString (newStoreReaderCollection [a, b, c]))
    ∧ (∀ a a' : Redactor, isCollection a = false → isCollection a' = false →
        redactorId a' = redactorId a →
        newStoreReaderCollection [a, a'] = newStoreReaderCollection [a]) := by
  refine ⟨?_, ?_, ?_⟩
  · intro readers h m hm
    exact foldl_collectStep_flat readers ([], []) (by simp) h m hm
  · intro a b c ha hb
    have hab : List.foldl collectStep ([], []) [a, b]
        = addReader (addReader ([], []) a) b := by
      rw [List.foldl_cons, collectStep_base _ a ha, List.foldl_cons,
        collectStep_base _ b hb, List.foldl_nil]
    have habc : List.foldl collectStep ([], []) [a, b, c]
        = collectStep (addReader (addReader ([], []) a) b) c := by
      rw [List.foldl_cons, collectStep_base _ a ha, List.foldl_cons,
        collectStep_base _ b hb, List.foldl_cons, List.foldl_nil]
    have houter : List.foldl collectStep ([], []) [newStoreReaderCollection [a, b], c]
        = collectStep (addReader (addReader ([], []) a) b) c := by
      rw [List.foldl_cons, List.foldl_cons, List.foldl_nil]
      rw [show collectStep ([], []) (newStoreReaderCollection [a, b])
          = ((List.foldl collectStep ([], []) [a, b]).1).foldl addReader ([], []) from rfl]
      rw [hab]
      rw [show (addReader (addReader ([], []) a) b) = List.foldl addReader ([], []) [a, b] from by
        rw [List.foldl_cons, List.foldl_cons, List.foldl_nil]]
      rw [refold_pair a b]
    have heq : newStoreReaderCollection [newStoreReaderCollection [a, b], c]
        = newStoreReaderCollection [a, b, c] := by
      show Redactor.storeReaderCollection
          (List.foldl collectStep ([], []) [newStoreReaderCollection [a, b], c]).1
        = Redactor.storeReaderCollection (List.foldl collectStep ([], []) [a, b, c]).1
      rw [houter, habc]
    exact ⟨heq, congrArg redactorRedactString heq⟩
  · intro a a1 ha ha1 hid
    show Redactor.storeReaderCollection (List.foldl collectStep ([], []) [a, a1]).1
      = Redactor.storeReaderCollection (List.foldl collectStep ([], []) [a]).1
    rw [List.foldl_cons, collectStep_base _ a ha, List.foldl_cons,
      collectStep_base _ a1 ha1, List.foldl_nil]
    rw [List.foldl_cons, collectStep_base _ a ha, List.foldl_nil]
    rw [addReader_empty]
    rw [show addReader ([a], [redactorId a]) a1 = ([a], [redactorId a]) from by
      unfold addReader
      rw [if_pos (by rw [hid]; exact List.mem_singleton_self _)]]

theorem c9_collection_flatten_dedup_witness :
    isCollection (Redactor.store ["p".toList] "i1".toList) = false
    ∧ isCollection (Redactor.store ["q".toList] "i2".toList) = false
    ∧ newStoreReaderCollection
        [newStoreReaderCollection [Redactor.store ["p".toList] "i1".toList,
          Redactor.store ["q".toList] "i2".toList],
         Redactor.store ["t".toList] "i3".toList]
      = newStoreReaderCollection [Redactor.store ["p".toList] "i1".toList,
          Redactor.store ["q".toList] "i2".toList,
          Redactor.store ["t".toList] "i3".toList] :=
  ⟨rfl, rfl,
    (c9_collection_flatten_dedup.2.1 (Redactor.store ["p".toList] "i1".toList)
      (Redactor.store ["q".toList] "i2".toList)
      (Redactor.store ["t".toList] "i3".toList) rfl rfl).1⟩

/-- C10: for any Redactor implementation other than the store and collection
types of the package, getRedactorValues returns the empty value list, so every
Write call computes a window size of 2 times 64 bytes regardless of what the
redactor actually redacts, and the boundary-mapping walk advances byte by
byte, mapping every in-range original position to itself. -/
theorem c10_unknown_redactor_defaults :
    ∀ (f : List Char → List Char) (ident : List Char),
      getRedactorValues (.other f ident) = []
      ∧ windowSize (.other f ident) = 2 * 64
      ∧ (∀ (original redacted : List Char) (origPos : Nat),
          origPos < original.length →
          mapPosition (getRedactorValues (.other f ident)) original redacted origPos
            = origPos) := by
  intro f ident
  refine ⟨rfl, rfl, ?_⟩
  intro original redacted origPos h
  rw [show getRedactorValues (Redactor.other f ident) = [] from rfl]
  unfold mapPosition
  rw [if_neg (by omega)]
  rw [mapPositionGo_no_values original origPos origPos 0 0 (by omega) (by omega) (by omega)]
  omega

theorem c10_unknown_redactor_defaults_witness :
    1 < ("abc".toList).length
    ∧ mapPosition (getRedactorValues (.other id [])) "abc".toList "xy".toList 1 = 1 :=
  ⟨by decide,
    (c10_unknown_redactor_defaults id []).2.2 "abc".toList "xy".toList 1 (by decide)⟩

end Redact
